import Mathlib

/-!
Shallow embedding of the baby-book repository's two specified subsystems:

* the runtime cache tier (`src/services/cacheService.ts`, class `CacheService`), and
* the build-time asset pipeline (`scripts` book scanner, class `BookScanner`).

Conventions of the embedding:

* JS `Map`s and the browser storage tiers are modelled as association lists
  keyed by `String`; JS `Map.set` replaces an existing binding in place and
  otherwise appends, which `insertKey` mirrors.
* Machine numbers are `Nat`/`Int`.  `currentMemoryUsage` is an `Int` because
  the source decrements it with plain JS subtraction.
* `Date.now()` / `performance.now()` values are passed in explicitly as `Nat`
  arguments (`now`), one per operation.
* The serialized byte size `new Blob([JSON.stringify(data)]).size` is passed
  to `set` explicitly as a `Nat`, and the payload itself is an opaque `Nat`
  tag: every behaviour in the claims depends on the data only through its
  size and identity.
* Storage-quota failures and IndexedDB unavailability are not modelled: the
  idealized browser storage always succeeds (the source catches and logs
  those failures without changing the control flow the claims are about).
-/

namespace BabyBook
namespace Cache

/-- `CacheEntry<T>` from `cacheService.ts` (`data`, `timestamp`, `ttl`,
`size`).  The payload is an opaque tag; `size` is always present because
every entry stored by this service is created by `set`, which computes it. -/
structure CacheEntry where
  data : Nat
  timestamp : Nat
  ttl : Nat
  size : Nat
deriving DecidableEq, Repr

/-- The mutable fields of the `CacheService` singleton that the claims are
about: the in-memory map, the recency list, the tracked byte counter, the
hit/miss counters, and the two durable tiers (localStorage under the
`bb-cache-` namespace, and the IndexedDB object store). -/
structure CacheState where
  memoryCache : List (String × CacheEntry)
  lruOrder : List String
  currentMemoryUsage : Int
  totalHits : Nat
  totalMisses : Nat
  localStorageTier : List (String × CacheEntry)
  indexedDBTier : List (String × CacheEntry)
deriving DecidableEq, Repr

/-- `maxMemorySize = 50 * 1024 * 1024` (50 MiB). -/
def maxMemorySize : Nat := 50 * 1024 * 1024

/-- The 1 MiB threshold above which `set` also writes to IndexedDB. -/
def indexedDBThreshold : Nat := 1024 * 1024

/-- Association-list lookup, modelling `Map.get` / `localStorage.getItem`. -/
def lookup (l : List (String × CacheEntry)) (k : String) : Option CacheEntry :=
  (l.find? (fun p => p.1 = k)).map (·.2)

/-- JS `Map.set` / `localStorage.setItem`: replace in place, else append. -/
def insertKey (l : List (String × CacheEntry)) (k : String) (e : CacheEntry) :
    List (String × CacheEntry) :=
  if l.any (fun p => p.1 = k) then
    l.map (fun p => if p.1 = k then (k, e) else p)
  else
    l ++ [(k, e)]

/-- JS `Map.delete` / `localStorage.removeItem`. -/
def eraseKey (l : List (String × CacheEntry)) (k : String) :
    List (String × CacheEntry) :=
  l.filter (fun p => p.1 ≠ k)

/-- The keys of an association list. -/
def keysOf (l : List (String × CacheEntry)) : List String :=
  l.map (·.1)

/-- `sum(entry.size for entry in tier)`. -/
def sumSizes (l : List (String × CacheEntry)) : Nat :=
  (l.map (fun p => p.2.size)).sum

/-- Removing the first occurrence of `k`, as
`lruOrder.splice(lruOrder.indexOf(k), 1)` does (no change when absent). -/
def removeFirst : List String → String → List String
  | [], _ => []
  | x :: xs, k => if x = k then xs else x :: removeFirst xs k

/-- `updateLRU`: drop the existing occurrence of `key`, then push it to the
back (most recently used). -/
def updateLRU (k : String) (lru : List String) : List String :=
  removeFirst lru k ++ [k]

/-- `delete(key)`: subtract the memory entry's tracked size, remove the key
from the memory map and the recency list, and remove it from localStorage
and IndexedDB. -/
def deleteOp (s : CacheState) (k : String) : CacheState :=
  let sz : Int := match lookup s.memoryCache k with
    | some e => (e.size : Int)
    | none => 0
  { s with
    currentMemoryUsage := s.currentMemoryUsage - sz
    memoryCache := eraseKey s.memoryCache k
    lruOrder := s.lruOrder.filter (fun x => x ≠ k)
    localStorageTier := eraseKey s.localStorageTier k
    indexedDBTier := eraseKey s.indexedDBTier k }

/-- The body of `evictLRU`'s `while` loop, with explicit fuel.  Each
iteration deletes the least recently used key (the head of `lruOrder`),
which strictly shortens the list, so fuel `lruOrder.length` suffices to
reach the loop's exit condition. -/
def evictLoop : Nat → Nat → CacheState → CacheState
  | 0, _, s => s
  | fuel + 1, req, s =>
    if s.currentMemoryUsage + (req : Int) > (maxMemorySize : Int) then
      match s.lruOrder with
      | [] => s
      | k :: _ => evictLoop fuel req (deleteOp s k)
    else s

/-- `evictLRU(requiredSpace)`: evict LRU entries while the budget would be
exceeded and the recency list is non-empty. -/
def evictLRU (req : Nat) (s : CacheState) : CacheState :=
  evictLoop s.lruOrder.length req s

/-- The storage half of `set`, after the optional eviction: store the new
entry in the memory map (updating recency and adding the new size to the
byte counter without subtracting any replaced entry's size), write through
to localStorage, and to IndexedDB when the size exceeds 1 MiB. -/
def setStorePhase (now : Nat) (k : String) (data size ttl : Nat)
    (s1 : CacheState) : CacheState :=
  { s1 with
    memoryCache := insertKey s1.memoryCache k ⟨data, now, ttl, size⟩
    lruOrder := updateLRU k s1.lruOrder
    currentMemoryUsage := s1.currentMemoryUsage + (size : Int)
    localStorageTier := insertKey s1.localStorageTier k ⟨data, now, ttl, size⟩
    indexedDBTier := if size > indexedDBThreshold then
      insertKey s1.indexedDBTier k ⟨data, now, ttl, size⟩ else s1.indexedDBTier }

/-- `set(key, data, {ttl})`: evict LRU entries when the projected usage
would exceed the budget, then store.  The source returns `{data: true}`;
no claim inspects that value. -/
def setOp (now : Nat) (k : String) (data size ttl : Nat) (s : CacheState) :
    CacheState :=
  setStorePhase now k data size ttl
    (if s.currentMemoryUsage + (size : Int) > (maxMemorySize : Int) then
      evictLRU size s else s)

/-- The tail of `get` once an entry has been located: `now - timestamp >
ttl` (equivalently `timestamp + ttl < now` over the integers) makes the
entry expired, in which case it is deleted from all tiers and the call
counts a miss with `null` data; otherwise the entry's data is returned. -/
def finishGet (now : Nat) (k : String) (e : CacheEntry) (s : CacheState) :
    CacheState × Option Nat :=
  if e.timestamp + e.ttl < now then
    let s1 := deleteOp s k
    ({ s1 with totalMisses := s1.totalMisses + 1 }, none)
  else
    (s, some e.data)

/-- `get(key)`: memory tier first (promoting recency), then localStorage
(repopulating the memory map and recency list, without touching the byte
counter), then IndexedDB (no repopulation); a miss everywhere returns
`null`.  The returned `Option Nat` is the `data` field of the
`ServiceResponse` — no error is produced on any of these paths. -/
def getOp (now : Nat) (k : String) (s : CacheState) : CacheState × Option Nat :=
  match lookup s.memoryCache k with
  | some e =>
    finishGet now k e
      { s with lruOrder := updateLRU k s.lruOrder, totalHits := s.totalHits + 1 }
  | none =>
    match lookup s.localStorageTier k with
    | some e =>
      finishGet now k e
        { s with
          memoryCache := insertKey s.memoryCache k e
          lruOrder := updateLRU k s.lruOrder
          totalHits := s.totalHits + 1 }
    | none =>
      match lookup s.indexedDBTier k with
      | some e => finishGet now k e { s with totalHits := s.totalHits + 1 }
      | none => ({ s with totalMisses := s.totalMisses + 1 }, none)

/-- `clear()`: empty the memory map, recency list and byte counter, remove
every `bb-cache-` key from localStorage (i.e. all of this service's
entries), and clear the IndexedDB store. -/
def clearOp (s : CacheState) : CacheState :=
  { s with
    memoryCache := []
    lruOrder := []
    currentMemoryUsage := 0
    localStorageTier := []
    indexedDBTier := [] }

/-- `getCacheMetrics().memoryUsage`: `updateCacheMetrics` copies
`currentMemoryUsage` into the metric before it is returned. -/
def memoryUsageMetric (s : CacheState) : Int :=
  s.currentMemoryUsage

/-- `getCacheMetrics().cacheSize`: the number of memory-tier entries. -/
def cacheSizeMetric (s : CacheState) : Nat :=
  s.memoryCache.length

/-- One public cache call, with its clock reading where the source reads
`Date.now()`. -/
inductive CacheOp where
  | set (now : Nat) (key : String) (data size ttl : Nat)
  | get (now : Nat) (key : String)
  | del (key : String)
  | clear
deriving DecidableEq, Repr

/-- Apply one public call (`get`'s returned data is dropped here). -/
def applyOp (s : CacheState) : CacheOp → CacheState
  | .set now k d sz t => setOp now k d sz t s
  | .get now k => (getOp now k s).1
  | .del k => deleteOp s k
  | .clear => clearOp s

/-- The state of a freshly constructed `CacheService`. -/
def initState : CacheState :=
  { memoryCache := []
    lruOrder := []
    currentMemoryUsage := 0
    totalHits := 0
    totalMisses := 0
    localStorageTier := []
    indexedDBTier := [] }

/-- Run a sequence of public calls from a state. -/
def runOps (s : CacheState) : List CacheOp → CacheState
  | [] => s
  | op :: rest => runOps (applyOp s op) rest

/-- The tracked size of the memory entry under `k` (0 when absent),
matching `entry?.size` in `delete`. -/
def entrySize (l : List (String × CacheEntry)) (k : String) : Nat :=
  match lookup l k with
  | some e => e.size
  | none => 0

theorem map_eq_self_of {α : Type} {l : List α} {f : α → α}
    (h : ∀ a ∈ l, f a = a) : l.map f = l := by
  induction l with
  | nil => rfl
  | cons a rest ih =>
    rw [List.map_cons, h a (List.mem_cons_self a rest),
      ih (fun b hb => h b (List.mem_cons_of_mem a hb))]

theorem sumSizes_cons (p : String × CacheEntry) (l : List (String × CacheEntry)) :
    sumSizes (p :: l) = p.2.size + sumSizes l := by
  simp [sumSizes]

theorem keysOf_cons (p : String × CacheEntry) (l : List (String × CacheEntry)) :
    keysOf (p :: l) = p.1 :: keysOf l := by
  simp [keysOf]

theorem lookup_cons (p : String × CacheEntry) (l : List (String × CacheEntry))
    (k : String) :
    lookup (p :: l) k = if p.1 = k then some p.2 else lookup l k := by
  by_cases h : p.1 = k <;> simp [lookup, List.find?, h]

theorem eraseKey_cons (p : String × CacheEntry) (l : List (String × CacheEntry))
    (k : String) :
    eraseKey (p :: l) k = if p.1 = k then eraseKey l k else p :: eraseKey l k := by
  by_cases h : p.1 = k <;> simp [eraseKey, List.filter_cons, h]

theorem lookup_eq_none_iff {l : List (String × CacheEntry)} {k : String} :
    lookup l k = none ↔ k ∉ keysOf l := by
  induction l with
  | nil => simp [lookup, keysOf]
  | cons p rest ih =>
    rw [lookup_cons, keysOf_cons]
    by_cases h : p.1 = k
    · simp [h]
    · simp only [h, if_false, List.mem_cons, ih]
      constructor
      · intro hk hor
        rcases hor with hk2 | hk2
        · exact h hk2.symm
        · exact hk hk2
      · intro hk hk2
        exact hk (Or.inr hk2)

theorem mem_keysOf_of_lookup {l : List (String × CacheEntry)} {k : String}
    {e : CacheEntry} (h : lookup l k = some e) : k ∈ keysOf l := by
  by_contra hk
  rw [← lookup_eq_none_iff] at hk
  rw [h] at hk
  exact Option.noConfusion hk

theorem keysOf_append (l₁ l₂ : List (String × CacheEntry)) :
    keysOf (l₁ ++ l₂) = keysOf l₁ ++ keysOf l₂ := by
  simp [keysOf]

theorem keysOf_insertKey (l : List (String × CacheEntry)) (k : String)
    (e : CacheEntry) :
    keysOf (insertKey l k e) =
      if l.any (fun p => p.1 = k) then keysOf l else keysOf l ++ [k] := by
  by_cases h : l.any (fun p => p.1 = k) = true
  · simp only [insertKey, h, if_true, keysOf, List.map_map]
    apply List.map_congr_left
    intro p _
    by_cases hp : p.1 = k <;> simp [hp]
  · simp only [insertKey, h, if_false, Bool.false_eq_true, keysOf, List.map_append,
      List.map_cons, List.map_nil]

theorem any_key_iff {l : List (String × CacheEntry)} {k : String} :
    l.any (fun p => p.1 = k) = true ↔ k ∈ keysOf l := by
  simp [List.any_eq_true, keysOf]

theorem mem_keysOf_insertKey {l : List (String × CacheEntry)} {k a : String}
    {e : CacheEntry} :
    a ∈ keysOf (insertKey l k e) ↔ a ∈ keysOf l ∨ a = k := by
  rw [keysOf_insertKey]
  by_cases h : l.any (fun p => p.1 = k) = true
  · rw [if_pos h]
    rw [any_key_iff] at h
    constructor
    · exact Or.inl
    · rintro (ha | rfl)
      · exact ha
      · exact h
  · rw [if_neg h]
    simp

theorem nodup_keysOf_insertKey {l : List (String × CacheEntry)} {k : String}
    {e : CacheEntry} (h : (keysOf l).Nodup) :
    (keysOf (insertKey l k e)).Nodup := by
  rw [keysOf_insertKey]
  by_cases hk : l.any (fun p => p.1 = k) = true
  · rwa [if_pos hk]
  · rw [if_neg hk]
    rw [List.nodup_append]
    refine ⟨h, List.nodup_singleton k, ?_⟩
    intro a ha hb
    rw [List.mem_singleton] at hb
    subst hb
    rw [← any_key_iff] at ha
    exact hk ha

theorem keysOf_eraseKey (l : List (String × CacheEntry)) (k : String) :
    keysOf (eraseKey l k) = (keysOf l).filter (fun x => x ≠ k) := by
  induction l with
  | nil => rfl
  | cons p rest ih =>
    rw [eraseKey_cons, keysOf_cons, List.filter_cons]
    by_cases h : p.1 = k
    · simp [h, ih]
    · simp [h, ih, keysOf_cons]

theorem mem_keysOf_eraseKey {l : List (String × CacheEntry)} {k a : String} :
    a ∈ keysOf (eraseKey l k) ↔ a ∈ keysOf l ∧ a ≠ k := by
  rw [keysOf_eraseKey]
  simp [List.mem_filter]

theorem nodup_keysOf_eraseKey {l : List (String × CacheEntry)} {k : String}
    (h : (keysOf l).Nodup) : (keysOf (eraseKey l k)).Nodup := by
  rw [keysOf_eraseKey]
  exact h.filter _

theorem lookup_eraseKey_self (l : List (String × CacheEntry)) (k : String) :
    lookup (eraseKey l k) k = none := by
  rw [lookup_eq_none_iff, mem_keysOf_eraseKey]
  simp

theorem eraseKey_eq_self {l : List (String × CacheEntry)} {k : String}
    (h : k ∉ keysOf l) : eraseKey l k = l := by
  induction l with
  | nil => rfl
  | cons p rest ih =>
    rw [keysOf_cons, List.mem_cons] at h
    push_neg at h
    rw [eraseKey_cons, if_neg (fun hp => h.1 hp.symm), ih h.2]

theorem entrySize_cons (p : String × CacheEntry) (l : List (String × CacheEntry))
    (k : String) :
    entrySize (p :: l) k = if p.1 = k then p.2.size else entrySize l k := by
  by_cases h : p.1 = k <;> simp [entrySize, lookup_cons, h]

theorem sumSizes_eraseKey_add {l : List (String × CacheEntry)} {k : String}
    (h : (keysOf l).Nodup) :
    sumSizes (eraseKey l k) + entrySize l k = sumSizes l := by
  induction l with
  | nil => simp [eraseKey, entrySize, lookup, sumSizes]
  | cons p rest ih =>
    rw [keysOf_cons, List.nodup_cons] at h
    rw [eraseKey_cons, entrySize_cons, sumSizes_cons]
    by_cases hp : p.1 = k
    · have herase : eraseKey rest k = rest := eraseKey_eq_self (hp ▸ h.1)
      rw [if_pos hp, if_pos hp, herase]
      omega
    · have ih2 := ih h.2
      rw [if_neg hp, if_neg hp, sumSizes_cons]
      omega

theorem insertKey_cons_of_ne (p : String × CacheEntry)
    (l : List (String × CacheEntry)) (k : String) (e : CacheEntry)
    (hp : p.1 ≠ k) : insertKey (p :: l) k e = p :: insertKey l k e := by
  by_cases hmem : l.any (fun q => q.1 = k) = true
  · have hmem2 : (p :: l).any (fun q => q.1 = k) = true := by
      simp only [List.any_cons, Bool.or_eq_true]
      exact Or.inr hmem
    rw [insertKey, insertKey, if_pos hmem, if_pos hmem2, List.map_cons,
      if_neg hp]
  · have hmem2 : ¬((p :: l).any (fun q => q.1 = k) = true) := by
      simp only [List.any_cons, Bool.or_eq_true, decide_eq_true_eq]
      push_neg
      refine ⟨hp, ?_⟩
      simpa using hmem
    rw [insertKey, insertKey, if_neg hmem, if_neg hmem2, List.cons_append]

theorem insertKey_cons_of_eq (p : String × CacheEntry)
    (l : List (String × CacheEntry)) (k : String) (e : CacheEntry)
    (hp : p.1 = k) (hl : k ∉ keysOf l) :
    insertKey (p :: l) k e = (k, e) :: l := by
  have hmem2 : (p :: l).any (fun q => q.1 = k) = true := by
    simp only [List.any_cons, Bool.or_eq_true, decide_eq_true_eq]
    exact Or.inl hp
  have hne : ∀ q ∈ l, ¬(q.1 = k) := by
    intro q hq hqk
    exact hl (hqk ▸ List.mem_map_of_mem _ hq)
  have hmap : l.map (fun q => if q.1 = k then (k, e) else q) = l :=
    map_eq_self_of (fun q hq => by rw [if_neg (hne q hq)])
  rw [insertKey, if_pos hmem2, List.map_cons, if_pos hp, hmap]

theorem insertKey_of_not_mem {l : List (String × CacheEntry)} {k : String}
    (e : CacheEntry) (hl : k ∉ keysOf l) : insertKey l k e = l ++ [(k, e)] := by
  have hmem : ¬(l.any (fun q => q.1 = k) = true) := fun hc =>
    hl (any_key_iff.mp hc)
  rw [insertKey, if_neg hmem]

theorem sumSizes_append (l₁ l₂ : List (String × CacheEntry)) :
    sumSizes (l₁ ++ l₂) = sumSizes l₁ + sumSizes l₂ := by
  simp [sumSizes]

theorem sumSizes_insertKey_add {l : List (String × CacheEntry)} {k : String}
    {e : CacheEntry} (h : (keysOf l).Nodup) :
    sumSizes (insertKey l k e) + entrySize l k = sumSizes l + e.size := by
  induction l with
  | nil => simp [insertKey, entrySize, lookup, sumSizes]
  | cons p rest ih =>
    rw [keysOf_cons, List.nodup_cons] at h
    by_cases hp : p.1 = k
    · rw [insertKey_cons_of_eq p rest k e hp (hp ▸ h.1), entrySize_cons,
        if_pos hp, sumSizes_cons, sumSizes_cons]
      simp only [show ((k, e) : String × CacheEntry).2 = e from rfl]
      omega
    · have ih2 := ih h.2
      rw [insertKey_cons_of_ne p rest k e hp, entrySize_cons, if_neg hp,
        sumSizes_cons, sumSizes_cons]
      omega

theorem sumSizes_eraseKey_le {l : List (String × CacheEntry)} {k : String}
    (h : (keysOf l).Nodup) : sumSizes (eraseKey l k) ≤ sumSizes l := by
  have := sumSizes_eraseKey_add (l := l) (k := k) h
  omega

theorem sumSizes_insertKey_le {l : List (String × CacheEntry)} {k : String}
    {e : CacheEntry} (h : (keysOf l).Nodup) :
    sumSizes (insertKey l k e) ≤ sumSizes l + e.size := by
  have := sumSizes_insertKey_add (l := l) (k := k) (e := e) h
  omega

theorem filter_ne_eq_self {l : List String} {k : String} (h : k ∉ l) :
    l.filter (fun x => x ≠ k) = l := by
  apply List.filter_eq_self.mpr
  intro a ha
  by_cases hak : a = k
  · exact absurd (hak ▸ ha) h
  · simp [hak]

theorem removeFirst_cons (x : String) (xs : List String) (k : String) :
    removeFirst (x :: xs) k = if x = k then xs else x :: removeFirst xs k := rfl

theorem removeFirst_eq_filter {l : List String} {k : String} (h : l.Nodup) :
    removeFirst l k = l.filter (fun x => x ≠ k) := by
  induction l with
  | nil => rfl
  | cons x xs ih =>
    rw [List.nodup_cons] at h
    rw [removeFirst_cons, List.filter_cons]
    by_cases hx : x = k
    · rw [if_pos hx, if_neg (by simp [hx])]
      exact (filter_ne_eq_self (hx ▸ h.1)).symm
    · rw [if_neg hx, if_pos (by simp [hx]), ih h.2]

theorem mem_updateLRU {lru : List String} {k a : String} (h : lru.Nodup) :
    a ∈ updateLRU k lru ↔ a ∈ lru ∨ a = k := by
  rw [updateLRU, removeFirst_eq_filter h, List.mem_append, List.mem_filter,
    List.mem_singleton]
  by_cases hak : a = k
  · simp [hak]
  · simp [hak]

theorem nodup_updateLRU {lru : List String} {k : String} (h : lru.Nodup) :
    (updateLRU k lru).Nodup := by
  rw [updateLRU, removeFirst_eq_filter h, List.nodup_append]
  refine ⟨h.filter _, List.nodup_singleton k, ?_⟩
  intro a ha hb
  rw [List.mem_singleton] at hb
  subst hb
  rw [List.mem_filter] at ha
  simpa using ha.2

/-- The state invariant maintained by every public cache operation: the
memory map's keys are duplicate-free, the recency list is duplicate-free
and tracks exactly the memory map's key set, the tracked byte counter
dominates the real sum of entry sizes, and every localStorage key is also a
memory key (within one service instance, `set`/`delete`/`clear` keep the
two tiers' key sets in sync, and `get` only repopulates memory from
localStorage — a path that never fires under this invariant). -/
structure WF (s : CacheState) : Prop where
  nodupMem : (keysOf s.memoryCache).Nodup
  nodupLru : s.lruOrder.Nodup
  lruKeys : ∀ k, k ∈ s.lruOrder ↔ k ∈ keysOf s.memoryCache
  sumLe : (sumSizes s.memoryCache : Int) ≤ s.currentMemoryUsage
  lsSub : ∀ k, k ∈ keysOf s.localStorageTier → k ∈ keysOf s.memoryCache

theorem wf_initState : WF initState := by
  constructor <;> simp [initState, keysOf, sumSizes]

theorem wf_deleteOp {s : CacheState} (h : WF s) (k : String) :
    WF (deleteOp s k) := by
  constructor
  · exact nodup_keysOf_eraseKey h.nodupMem
  · exact h.nodupLru.filter _
  · intro a
    rw [deleteOp]
    simp only [List.mem_filter, mem_keysOf_eraseKey]
    rw [h.lruKeys a]
    simp only [ne_eq, decide_not]
    constructor
    · rintro ⟨ha, hb⟩
      refine ⟨ha, ?_⟩
      simpa using hb
    · rintro ⟨ha, hb⟩
      refine ⟨ha, ?_⟩
      simpa using hb
  · have hsum := sumSizes_eraseKey_add (l := s.memoryCache) (k := k) h.nodupMem
    have hle := h.sumLe
    rw [deleteOp]
    simp only
    have hcase : (match lookup s.memoryCache k with
        | some e => (e.size : Int)
        | none => 0) = (entrySize s.memoryCache k : Int) := by
      rw [entrySize]
      cases lookup s.memoryCache k <;> simp
    rw [hcase]
    omega
  · intro a ha
    rw [deleteOp] at ha ⊢
    simp only [mem_keysOf_eraseKey] at ha ⊢
    exact ⟨h.lsSub a ha.1, ha.2⟩

theorem wf_evictLoop {s : CacheState} (h : WF s) (fuel req : Nat) :
    WF (evictLoop fuel req s) := by
  induction fuel generalizing s with
  | zero => exact h
  | succ n ih =>
    rw [evictLoop]
    by_cases hc : s.currentMemoryUsage + (req : Int) > (maxMemorySize : Int)
    · rw [if_pos hc]
      cases hl : s.lruOrder with
      | nil => exact h
      | cons k rest => exact ih (wf_deleteOp h k)
    · rw [if_neg hc]
      exact h

theorem evictLoop_post {s : CacheState} {fuel : Nat} (req : Nat)
    (hfuel : s.lruOrder.length ≤ fuel) :
    (evictLoop fuel req s).currentMemoryUsage + (req : Int) ≤ (maxMemorySize : Int) ∨
      (evictLoop fuel req s).lruOrder = [] := by
  induction fuel generalizing s with
  | zero =>
    right
    rw [evictLoop]
    exact List.eq_nil_of_length_eq_zero (Nat.le_zero.mp hfuel)
  | succ n ih =>
    rw [evictLoop]
    by_cases hc : s.currentMemoryUsage + (req : Int) > (maxMemorySize : Int)
    · rw [if_pos hc]
      cases hl : s.lruOrder with
      | nil => exact Or.inr hl
      | cons k rest =>
        apply ih
        rw [deleteOp]
        simp only
        rw [hl]
        rw [hl] at hfuel
        calc (List.filter (fun x => x ≠ k) (k :: rest)).length
            ≤ (List.filter (fun x => x ≠ k) rest).length := by
              rw [List.filter_cons]
              simp
          _ ≤ rest.length := List.length_filter_le _ _
          _ ≤ n := by simpa using hfuel
    · rw [if_neg hc]
      left
      omega

theorem wf_setStorePhase {s1 : CacheState} (h1 : WF s1) (now : Nat)
    (k : String) (d sz t : Nat) : WF (setStorePhase now k d sz t s1) := by
  constructor
  · exact nodup_keysOf_insertKey h1.nodupMem
  · exact nodup_updateLRU h1.nodupLru
  · intro a
    show a ∈ updateLRU k s1.lruOrder ↔
      a ∈ keysOf (insertKey s1.memoryCache k ⟨d, now, t, sz⟩)
    rw [mem_updateLRU h1.nodupLru, mem_keysOf_insertKey, h1.lruKeys a]
  · show (sumSizes (insertKey s1.memoryCache k ⟨d, now, t, sz⟩) : Int) ≤
      s1.currentMemoryUsage + (sz : Int)
    have hle := sumSizes_insertKey_le (l := s1.memoryCache) (k := k)
      (e := ⟨d, now, t, sz⟩) h1.nodupMem
    rw [show (⟨d, now, t, sz⟩ : CacheEntry).size = sz from rfl] at hle
    have h2 := h1.sumLe
    omega
  · intro a ha
    rw [show keysOf (setStorePhase now k d sz t s1).localStorageTier =
      keysOf (insertKey s1.localStorageTier k ⟨d, now, t, sz⟩) from rfl] at ha
    rw [show keysOf (setStorePhase now k d sz t s1).memoryCache =
      keysOf (insertKey s1.memoryCache k ⟨d, now, t, sz⟩) from rfl]
    rw [mem_keysOf_insertKey] at ha ⊢
    rcases ha with ha | rfl
    · exact Or.inl (h1.lsSub a ha)
    · exact Or.inr rfl

theorem wf_setOp {s : CacheState} (h : WF s) (now : Nat) (k : String)
    (d sz t : Nat) : WF (setOp now k d sz t s) := by
  rw [setOp]
  apply wf_setStorePhase
  split
  · exact wf_evictLoop h _ _
  · exact h

theorem wf_finishGet {s : CacheState} (h : WF s) (now : Nat) (k : String)
    (e : CacheEntry) : WF (finishGet now k e s).1 := by
  rw [finishGet]
  split
  · have hd := wf_deleteOp h k
    exact ⟨hd.nodupMem, hd.nodupLru, hd.lruKeys, hd.sumLe, hd.lsSub⟩
  · exact h

theorem getOp_eq_mem {s : CacheState} {now : Nat} {k : String} {e : CacheEntry}
    (hm : lookup s.memoryCache k = some e) :
    getOp now k s = finishGet now k e
      { s with lruOrder := updateLRU k s.lruOrder,
               totalHits := s.totalHits + 1 } := by
  unfold getOp
  rw [hm]

theorem getOp_eq_ls {s : CacheState} {now : Nat} {k : String} {e : CacheEntry}
    (hm : lookup s.memoryCache k = none)
    (hl : lookup s.localStorageTier k = some e) :
    getOp now k s = finishGet now k e
      { s with memoryCache := insertKey s.memoryCache k e,
               lruOrder := updateLRU k s.lruOrder,
               totalHits := s.totalHits + 1 } := by
  unfold getOp
  rw [hm, hl]

theorem getOp_eq_idb {s : CacheState} {now : Nat} {k : String} {e : CacheEntry}
    (hm : lookup s.memoryCache k = none)
    (hl : lookup s.localStorageTier k = none)
    (hi : lookup s.indexedDBTier k = some e) :
    getOp now k s = finishGet now k e
      { s with totalHits := s.totalHits + 1 } := by
  unfold getOp
  rw [hm, hl, hi]

theorem getOp_eq_miss {s : CacheState} {now : Nat} {k : String}
    (hm : lookup s.memoryCache k = none)
    (hl : lookup s.localStorageTier k = none)
    (hi : lookup s.indexedDBTier k = none) :
    getOp now k s = ({ s with totalMisses := s.totalMisses + 1 }, none) := by
  unfold getOp
  rw [hm, hl, hi]

theorem wf_promoteHit {s : CacheState} (h : WF s) {k : String}
    {e : CacheEntry} (hm : lookup s.memoryCache k = some e) :
    WF { s with lruOrder := updateLRU k s.lruOrder,
                totalHits := s.totalHits + 1 } := by
  have hk : k ∈ keysOf s.memoryCache := mem_keysOf_of_lookup hm
  constructor
  · exact h.nodupMem
  · exact nodup_updateLRU h.nodupLru
  · intro a
    show a ∈ updateLRU k s.lruOrder ↔ a ∈ keysOf s.memoryCache
    rw [mem_updateLRU h.nodupLru, h.lruKeys a]
    constructor
    · rintro (ha | rfl)
      · exact ha
      · exact hk
    · exact Or.inl
  · exact h.sumLe
  · exact h.lsSub

theorem wf_getOp {s : CacheState} (h : WF s) (now : Nat) (k : String) :
    WF (getOp now k s).1 := by
  cases hm : lookup s.memoryCache k with
  | some e =>
    rw [getOp_eq_mem hm]
    exact wf_finishGet (wf_promoteHit h hm) now k e
  | none =>
    cases hl : lookup s.localStorageTier k with
    | some e =>
      exact absurd (h.lsSub k (mem_keysOf_of_lookup hl))
        (lookup_eq_none_iff.mp hm)
    | none =>
      cases hi : lookup s.indexedDBTier k with
      | some e =>
        rw [getOp_eq_idb hm hl hi]
        apply wf_finishGet
        exact ⟨h.nodupMem, h.nodupLru, h.lruKeys, h.sumLe, h.lsSub⟩
      | none =>
        rw [getOp_eq_miss hm hl hi]
        exact ⟨h.nodupMem, h.nodupLru, h.lruKeys, h.sumLe, h.lsSub⟩

theorem wf_clearOp (s : CacheState) : WF (clearOp s) := by
  constructor <;> simp [clearOp, keysOf, sumSizes]

theorem wf_applyOp {s : CacheState} (h : WF s) (op : CacheOp) :
    WF (applyOp s op) := by
  cases op with
  | set now k d sz t => exact wf_setOp h now k d sz t
  | get now k => exact wf_getOp h now k
  | del k => exact wf_deleteOp h k
  | clear => exact wf_clearOp s

theorem wf_runOps {s : CacheState} (h : WF s) (ops : List CacheOp) :
    WF (runOps s ops) := by
  induction ops generalizing s with
  | nil => exact h
  | cons op rest ih => exact ih (wf_applyOp h op)

/-- C9: after any sequence of public cache calls starting from a fresh
service, the recency list `lruOrder` has no duplicate keys and its key set
is exactly the key set of the in-memory map.  Eviction is included: it runs
inside `set` and only composes `delete` steps. -/
theorem lruOrder_matches_memoryCache (ops : List CacheOp) :
    (runOps initState ops).lruOrder.Nodup ∧
      (∀ k, k ∈ (runOps initState ops).lruOrder ↔
        k ∈ keysOf (runOps initState ops).memoryCache) :=
  ⟨(wf_runOps wf_initState ops).nodupLru, (wf_runOps wf_initState ops).lruKeys⟩

/-- A call is size-compliant when, if it is a `set`, its serialized size is
within the whole memory budget. -/
def SizeOK : CacheOp → Prop
  | .set _ _ _ sz _ => sz ≤ maxMemorySize
  | _ => True

theorem keys_nil_of_lru_nil {s : CacheState} (h : WF s)
    (hl : s.lruOrder = []) : s.memoryCache = [] := by
  cases hm : s.memoryCache with
  | nil => rfl
  | cons p rest =>
    exfalso
    have : p.1 ∈ keysOf s.memoryCache := by
      rw [hm, keysOf_cons]
      exact List.mem_cons_self _ _
    have := (h.lruKeys p.1).mpr this
    rw [hl] at this
    exact List.not_mem_nil _ this

theorem bound_deleteOp {s : CacheState} (h : WF s)
    (hb : sumSizes s.memoryCache ≤ maxMemorySize) (k : String) :
    sumSizes (deleteOp s k).memoryCache ≤ maxMemorySize := by
  have := sumSizes_eraseKey_le (l := s.memoryCache) (k := k) h.nodupMem
  rw [show (deleteOp s k).memoryCache = eraseKey s.memoryCache k from rfl]
  omega

theorem bound_finishGet {s : CacheState} (h : WF s)
    (hb : sumSizes s.memoryCache ≤ maxMemorySize) (now : Nat) (k : String)
    (e : CacheEntry) :
    sumSizes (finishGet now k e s).1.memoryCache ≤ maxMemorySize := by
  rw [finishGet]
  split
  · exact bound_deleteOp h hb k
  · exact hb

theorem bound_applyOp {s : CacheState} (h : WF s)
    (hb : sumSizes s.memoryCache ≤ maxMemorySize) {op : CacheOp}
    (hop : SizeOK op) : sumSizes (applyOp s op).memoryCache ≤ maxMemorySize := by
  cases op with
  | set now k d sz t =>
    show sumSizes (setOp now k d sz t s).memoryCache ≤ maxMemorySize
    rw [setOp]
    by_cases hc : s.currentMemoryUsage + (sz : Int) > (maxMemorySize : Int)
    · rw [if_pos hc]
      have h1 : WF (evictLRU sz s) := wf_evictLoop h _ _
      have hpost := evictLoop_post (s := s) sz
        (le_refl s.lruOrder.length)
      rw [show evictLRU sz s = evictLoop s.lruOrder.length sz s from rfl] at h1
      have hsz : sz ≤ maxMemorySize := hop
      set s1 := evictLoop s.lruOrder.length sz s with hs1
      show sumSizes (insertKey s1.memoryCache k ⟨d, now, t, sz⟩) ≤ maxMemorySize
      rcases hpost with hcle | hnil
      · have hle := sumSizes_insertKey_le (l := s1.memoryCache) (k := k)
          (e := ⟨d, now, t, sz⟩) h1.nodupMem
        rw [show (⟨d, now, t, sz⟩ : CacheEntry).size = sz from rfl] at hle
        have h2 := h1.sumLe
        omega
      · rw [keys_nil_of_lru_nil h1 hnil]
        rw [insertKey_of_not_mem _ (by simp [keysOf])]
        simpa [sumSizes] using hsz
    · rw [if_neg hc]
      show sumSizes (insertKey s.memoryCache k ⟨d, now, t, sz⟩) ≤ maxMemorySize
      have hle := sumSizes_insertKey_le (l := s.memoryCache) (k := k)
        (e := ⟨d, now, t, sz⟩) h.nodupMem
      rw [show (⟨d, now, t, sz⟩ : CacheEntry).size = sz from rfl] at hle
      have h2 := h.sumLe
      omega
  | get now k =>
    show sumSizes (getOp now k s).1.memoryCache ≤ maxMemorySize
    cases hm : lookup s.memoryCache k with
    | some e =>
      rw [getOp_eq_mem hm]
      exact bound_finishGet (wf_promoteHit h hm) hb now k e
    | none =>
      cases hl : lookup s.localStorageTier k with
      | some e =>
        exact absurd (h.lsSub k (mem_keysOf_of_lookup hl))
          (lookup_eq_none_iff.mp hm)
      | none =>
        cases hi : lookup s.indexedDBTier k with
        | some e =>
          rw [getOp_eq_idb hm hl hi]
          exact bound_finishGet (s := { s with totalHits := s.totalHits + 1 })
            ⟨h.nodupMem, h.nodupLru, h.lruKeys, h.sumLe, h.lsSub⟩ hb now k e
        | none =>
          rw [getOp_eq_miss hm hl hi]
          exact hb
  | del k => exact bound_deleteOp h hb k
  | clear => simp [applyOp, clearOp, sumSizes]

theorem bound_runOps {s : CacheState} (h : WF s)
    (hb : sumSizes s.memoryCache ≤ maxMemorySize) {ops : List CacheOp}
    (hall : ∀ op ∈ ops, SizeOK op) :
    sumSizes (runOps s ops).memoryCache ≤ maxMemorySize := by
  induction ops generalizing s with
  | nil => exact hb
  | cons op rest ih =>
    exact ih (wf_applyOp h op)
      (bound_applyOp h hb (hall op (List.mem_cons_self op rest)))
      (fun o ho => hall o (List.mem_cons_of_mem op ho))

/-- C1 (amended): over any sequence of public cache calls in which every
`set`'s serialized size is at most `maxMemorySize`, the sum of `entry.size`
over the in-memory cache is at most `maxMemorySize` at every point in time
(i.e. after every prefix of the call sequence).  The amendment drops the
oversized-value clause: the source has no such branch (see the
counterexample — an oversized value is still inserted into the memory tier
after eviction empties it, and the bound then fails). -/
theorem memory_bound_of_sizeOK (ops : List CacheOp)
    (hall : ∀ op ∈ ops, SizeOK op) (pre suf : List CacheOp)
    (hsplit : ops = pre ++ suf) :
    sumSizes (runOps initState pre).memoryCache ≤ maxMemorySize := by
  apply bound_runOps wf_initState (by simp [initState, sumSizes])
  intro o ho
  exact hall o (hsplit ▸ List.mem_append_left suf ho)

/-- Witness for `memory_bound_of_sizeOK` at a concrete one-`set` trace. -/
theorem memory_bound_of_sizeOK_witness :
    sumSizes (runOps initState [CacheOp.set 0 "k" 1 10 100]).memoryCache ≤
      maxMemorySize :=
  memory_bound_of_sizeOK [CacheOp.set 0 "k" 1 10 100]
    (by
      intro o ho
      rw [List.mem_singleton] at ho
      subst ho
      show (10 : Nat) ≤ maxMemorySize
      norm_num [maxMemorySize])
    [CacheOp.set 0 "k" 1 10 100] [] rfl

/-- C1 counterexample: a single `set` whose serialized size exceeds the
whole memory budget is *not* skipped — the entry lands in the memory tier
(evicting nothing, since the cache is empty) and the size sum exceeds
`maxMemorySize`, refuting both the unconditional bound and the claimed
skip-the-memory-tier behaviour. -/
theorem oversized_set_stored_in_memory :
    sumSizes (runOps initState
        [CacheOp.set 0 "k" 0 (maxMemorySize + 1) 1000]).memoryCache >
      maxMemorySize ∧
    lookup (runOps initState
        [CacheOp.set 0 "k" 0 (maxMemorySize + 1) 1000]).memoryCache "k" =
      some ⟨0, 0, 1000, maxMemorySize + 1⟩ := by
  constructor
  · decide
  · decide

/-- The entry that `get` locates, in the tier order the source uses:
memory first, then localStorage, then IndexedDB. -/
def foundEntry (s : CacheState) (k : String) : Option CacheEntry :=
  match lookup s.memoryCache k with
  | some e => some e
  | none =>
    match lookup s.localStorageTier k with
    | some e => some e
    | none => lookup s.indexedDBTier k

/-- C3: whatever tier holds the entry that `get` locates for `k`, if the
call happens strictly after `timestamp + ttl` (the source's
`now - entry.timestamp > entry.ttl`), the call returns a miss (`null`
data, and none of these paths produce an error) and the key is removed
from all three tiers. -/
theorem get_after_ttl_expiry (s : CacheState) (k : String) (now : Nat)
    (e : CacheEntry) (hfound : foundEntry s k = some e)
    (hexp : e.timestamp + e.ttl < now) :
    (getOp now k s).2 = none ∧
    lookup (getOp now k s).1.memoryCache k = none ∧
    lookup (getOp now k s).1.localStorageTier k = none ∧
    lookup (getOp now k s).1.indexedDBTier k = none := by
  cases hm : lookup s.memoryCache k with
  | some e1 =>
    have he : e1 = e := by
      unfold foundEntry at hfound
      rw [hm] at hfound
      exact Option.some.inj hfound
    subst he
    rw [getOp_eq_mem hm, finishGet, if_pos hexp]
    exact ⟨rfl, lookup_eraseKey_self _ _, lookup_eraseKey_self _ _,
      lookup_eraseKey_self _ _⟩
  | none =>
    cases hl : lookup s.localStorageTier k with
    | some e1 =>
      have he : e1 = e := by
        unfold foundEntry at hfound
        rw [hm, hl] at hfound
        exact Option.some.inj hfound
      subst he
      rw [getOp_eq_ls hm hl, finishGet, if_pos hexp]
      exact ⟨rfl, lookup_eraseKey_self _ _, lookup_eraseKey_self _ _,
        lookup_eraseKey_self _ _⟩
    | none =>
      cases hi : lookup s.indexedDBTier k with
      | some e1 =>
        have he : e1 = e := by
          unfold foundEntry at hfound
          rw [hm, hl, hi] at hfound
          exact Option.some.inj hfound
        subst he
        rw [getOp_eq_idb hm hl hi, finishGet, if_pos hexp]
        exact ⟨rfl, lookup_eraseKey_self _ _, lookup_eraseKey_self _ _,
          lookup_eraseKey_self _ _⟩
      | none =>
        exfalso
        unfold foundEntry at hfound
        rw [hm, hl, hi] at hfound
        exact Option.noConfusion hfound

/-- Witness for `get_after_ttl_expiry`: a key set at time 0 with a 5 ms TTL
is a miss at time 6 and is gone from all tiers. -/
theorem get_after_ttl_expiry_witness :
    foundEntry (setOp 0 "k" 7 10 5 initState) "k" = some ⟨7, 0, 5, 10⟩ ∧
    (0 + 5 < 6) ∧
    ((getOp 6 "k" (setOp 0 "k" 7 10 5 initState)).2 = none ∧
      lookup (getOp 6 "k" (setOp 0 "k" 7 10 5 initState)).1.memoryCache "k" = none ∧
      lookup (getOp 6 "k" (setOp 0 "k" 7 10 5 initState)).1.localStorageTier "k" = none ∧
      lookup (getOp 6 "k" (setOp 0 "k" 7 10 5 initState)).1.indexedDBTier "k" = none) :=
  ⟨by decide, by decide,
    get_after_ttl_expiry (setOp 0 "k" 7 10 5 initState) "k" 6 ⟨7, 0, 5, 10⟩
      (by decide) (by decide)⟩

theorem setOp_no_evict {s : CacheState} {now : Nat} {k : String}
    {d sz t : Nat}
    (h : ¬(s.currentMemoryUsage + (sz : Int) > (maxMemorySize : Int))) :
    setOp now k d sz t s = setStorePhase now k d sz t s := by
  rw [setOp, if_neg h]

/-- C10: `set` on an already-present key replaces the memory entry but adds
the new size to `currentMemoryUsage` without subtracting the old one: after
`set(k, v1)` then `set(k, v2)` with no eviction triggered, the tracked
usage and the reported `memoryUsage` metric are `size(v1) + size(v2)`,
while only the single replacement entry for `k` is held. -/
theorem double_set_double_counts (k : String) (d1 d2 s1 s2 t1 t2 n1 n2 : Nat)
    (h1 : s1 ≤ maxMemorySize) (h2 : s1 + s2 ≤ maxMemorySize) :
    (setOp n2 k d2 s2 t2 (setOp n1 k d1 s1 t1 initState)).currentMemoryUsage =
        (s1 : Int) + (s2 : Int) ∧
    memoryUsageMetric (setOp n2 k d2 s2 t2 (setOp n1 k d1 s1 t1 initState)) =
        (s1 : Int) + (s2 : Int) ∧
    (setOp n2 k d2 s2 t2 (setOp n1 k d1 s1 t1 initState)).memoryCache =
        [(k, ⟨d2, n2, t2, s2⟩)] ∧
    cacheSizeMetric (setOp n2 k d2 s2 t2 (setOp n1 k d1 s1 t1 initState)) = 1 := by
  have hc1 : ¬(initState.currentMemoryUsage + (s1 : Int) >
      (maxMemorySize : Int)) := by
    show ¬((0 : Int) + (s1 : Int) > (maxMemorySize : Int))
    omega
  have e1 : setOp n1 k d1 s1 t1 initState =
      setStorePhase n1 k d1 s1 t1 initState := setOp_no_evict hc1
  have hmem1 : (setStorePhase n1 k d1 s1 t1 initState).memoryCache =
      [(k, ⟨d1, n1, t1, s1⟩)] := by
    show insertKey [] k ⟨d1, n1, t1, s1⟩ = [(k, ⟨d1, n1, t1, s1⟩)]
    rw [insertKey_of_not_mem _ (by simp [keysOf])]
    rfl
  have hcmu1 : (setStorePhase n1 k d1 s1 t1 initState).currentMemoryUsage =
      (s1 : Int) := by
    show (0 : Int) + (s1 : Int) = (s1 : Int)
    omega
  have hc2 : ¬((setOp n1 k d1 s1 t1 initState).currentMemoryUsage +
      (s2 : Int) > (maxMemorySize : Int)) := by
    rw [e1, hcmu1]
    omega
  have e2 : setOp n2 k d2 s2 t2 (setOp n1 k d1 s1 t1 initState) =
      setStorePhase n2 k d2 s2 t2 (setOp n1 k d1 s1 t1 initState) :=
    setOp_no_evict hc2
  have hmem2 : (setOp n2 k d2 s2 t2 (setOp n1 k d1 s1 t1 initState)).memoryCache =
      [(k, ⟨d2, n2, t2, s2⟩)] := by
    rw [e2]
    show insertKey (setOp n1 k d1 s1 t1 initState).memoryCache k
      ⟨d2, n2, t2, s2⟩ = [(k, ⟨d2, n2, t2, s2⟩)]
    rw [e1, hmem1]
    rw [insertKey_cons_of_eq _ _ _ _ rfl (by simp [keysOf])]
  have hcmu2 : (setOp n2 k d2 s2 t2
      (setOp n1 k d1 s1 t1 initState)).currentMemoryUsage =
      (s1 : Int) + (s2 : Int) := by
    rw [e2]
    show (setOp n1 k d1 s1 t1 initState).currentMemoryUsage + (s2 : Int) =
      (s1 : Int) + (s2 : Int)
    rw [e1, hcmu1]
  refine ⟨hcmu2, ?_, hmem2, ?_⟩
  · rw [memoryUsageMetric, hcmu2]
  · rw [cacheSizeMetric, hmem2]
    rfl

/-- Witness for `double_set_double_counts` at concrete sizes 10 and 20. -/
theorem double_set_double_counts_witness :
    (setOp 1 "k" 9 20 50 (setOp 0 "k" 8 10 50 initState)).currentMemoryUsage =
        (10 : Int) + (20 : Int) ∧
    memoryUsageMetric (setOp 1 "k" 9 20 50 (setOp 0 "k" 8 10 50 initState)) =
        (10 : Int) + (20 : Int) ∧
    (setOp 1 "k" 9 20 50 (setOp 0 "k" 8 10 50 initState)).memoryCache =
        [("k", ⟨9, 1, 50, 20⟩)] ∧
    cacheSizeMetric (setOp 1 "k" 9 20 50 (setOp 0 "k" 8 10 50 initState)) = 1 :=
  double_set_double_counts "k" 8 9 10 20 50 50 0 1
    (by norm_num [maxMemorySize]) (by norm_num [maxMemorySize])

end Cache

namespace Pipeline

/-!
Embedding of the build-time book scanner (`BookScanner`).

* A source image is an `Img`: its basename stem, its extension (with the
  leading dot), its pixel dimensions as reported by `sharp.metadata()`, and
  an `ok` flag abstracting whether `sharp` processing of this file
  succeeds (the scanner's only per-image failure source; on failure the
  source logs and rethrows).
* A book folder is the data `processBook` reads from disk: the folder
  name, the de-duplicated image list produced by `findImages` (the claims
  operate on folders whose image basenames are distinct), the text files
  present in the folder, and the relevant `metadata.json` fields.
* `localeCompare` is modelled as the codepoint (lexicographic) order on
  `String`, and `Array.prototype.sort` with the scanner's comparator as
  the sorted permutation under that comparator — the comparator is
  antisymmetric on distinct filenames, so the sorted permutation is
  unique and stability is irrelevant there; the final manifest sort by
  title is modelled with a stable insertion sort, matching JS.
* Derived bytes produced by the image codec are outside the program;
  emitted files are tracked by name, and the LQIP data URI by its fixed
  `data:image/webp;base64,` header.
-/

/-- `RESPONSIVE_WIDTHS = [320, 768, 1024, 1920]`. -/
def RESPONSIVE_WIDTHS : List Nat := [320, 768, 1024, 1920]

/-- A source image file of a book folder. -/
structure Img where
  stem : String
  ext : String
  width : Nat
  height : Nat
  ok : Bool
deriving DecidableEq, Repr

/-- The image's basename, e.g. `"001-a" ++ ".jpg"`. -/
def Img.filename (i : Img) : String := i.stem ++ i.ext

/-- What `processBook` reads from one book folder. -/
structure BookFolder where
  name : String
  images : List Img
  textFiles : List (String × String)
  metaTitle : Option String
  metaDescription : Option String
  pageOrder : Option (List String)
deriving DecidableEq, Repr

/-- JS falsy-`||` on an optional string: an absent *or empty* explicit
value falls back to the default. -/
def jsOr (o : Option String) (d : String) : String :=
  match o with
  | some t => if t = "" then d else t
  | none => d

/-- `[a-z0-9]` test used by `generateId`. -/
def isLowerAlnum (c : Char) : Bool :=
  (('a' ≤ c ∧ c ≤ 'z') ∨ ('0' ≤ c ∧ c ≤ '9') : Bool)

/-- The dash-run collapse (global replace of the regex `-+` by `-`):
each run of dashes becomes a single dash. -/
def collapseDashes : List Char → List Char
  | [] => []
  | c :: rest =>
    let r := collapseDashes rest
    if c = '-' then
      match r with
      | '-' :: _ => r
      | _ => c :: r
    else c :: r

/-- The edge-dash strip (global replace of the anchored regex
`^- OR -$` by the empty string) on a dash-collapsed string: remove one
leading and one trailing dash. -/
def stripEdgeDashes (l : List Char) : List Char :=
  let l1 := match l with
    | '-' :: rest => rest
    | other => other
  match l1.reverse with
  | '-' :: rest => rest.reverse
  | _ => l1

/-- `generateId`: lowercase, map every non-`[a-z0-9]` character to a dash,
collapse dash runs, strip edge dashes. -/
def generateId (folderName : String) : String :=
  String.mk (stripEdgeDashes (collapseDashes
    ((folderName.toList.map Char.toLower).map
      (fun c => if isLowerAlnum c then c else '-'))))

/-- `\w` of `formatTitle`'s `\b\w` (ASCII word character). -/
def isWordChar (c : Char) : Bool := c.isAlphanum || c = '_'

/-- Uppercase each word character that starts a word (`replace(/\b\w/g,
l => l.toUpperCase())`); the flag records whether the previous character
was a word character. -/
def capWords : List Char → Bool → List Char
  | [], _ => []
  | c :: rest, prevWord =>
    (if isWordChar c ∧ ¬prevWord then c.toUpper else c) ::
      capWords rest (isWordChar c)

/-- Whether `s` begins with the pattern `pat` (character lists). -/
def hasLead : List Char → List Char → Bool
  | [], _ => true
  | _ :: _, [] => false
  | p :: ps, c :: cs => p = c && hasLead ps cs

/-- JS `String.prototype.trim`: drop whitespace from both ends. -/
def jsTrim (s : String) : String :=
  String.mk
    (((s.toList.dropWhile Char.isWhitespace).reverse.dropWhile
      Char.isWhitespace).reverse)

/-- `formatTitle`: dashes and underscores to spaces, capitalize word
starts, trim. -/
def formatTitle (t : String) : String :=
  jsTrim (String.mk (capWords
    (t.toList.map (fun c => if c = '-' ∨ c = '_' then ' ' else c)) false))

/-- Remove the first occurrence of `pat` from `s` (character lists). -/
def removeFirstSub : List Char → List Char → List Char
  | [], _ => []
  | c :: rest, pat =>
    if hasLead pat (c :: rest) then (c :: rest).drop pat.length
    else c :: removeFirstSub rest pat

/-- JS `String.prototype.replace` with a string pattern and empty
replacement: remove the first occurrence of `pat` (identity when
absent). -/
def jsReplaceFirst (s pat : String) : String :=
  String.mk (removeFirstSub s.toList pat.toList)

/-- JS `String.prototype.startsWith`. -/
def jsStartsWith (s pat : String) : Bool :=
  hasLead pat.toList s.toList

/-- Split a character list at each occurrence of `sep`. -/
def splitCh (sep : Char) : List Char → List (List Char)
  | [] => [[]]
  | c :: rest =>
    let r := splitCh sep rest
    if c = sep then [] :: r
    else
      match r with
      | [] => [[c]]
      | h :: t => (c :: h) :: t

/-- JS `content.split('\n')`. -/
def jsSplitLines (s : String) : List String :=
  (splitCh (Char.ofNat 10) s.toList).map String.mk

/-- Find a text file of the folder by name (`fs.pathExists` + read). -/
def lookupFile (files : List (String × String)) (n : String) : Option String :=
  (files.find? (fun p => p.1 = n)).map (·.2)

/-- The three fields parsed from a sibling `<stem>.md` page description. -/
structure PageDescription where
  title : String
  content : String
  alt : String
deriving DecidableEq, Repr

/-- `findPageDescription`: read `<stem>.md` if present; the first line
starting with `"# "` (with that first occurrence removed) is the title,
the first line starting with `"Alt: "` likewise the alt text, and the
whole content the description; absent file gives empty strings. -/
def findPageDescription (folder : BookFolder) (i : Img) : PageDescription :=
  match lookupFile folder.textFiles (i.stem ++ ".md") with
  | none => ⟨"", "", ""⟩
  | some content =>
    let lines := jsSplitLines content
    let title := match lines.find? (fun l => jsStartsWith l "# ") with
      | some l => jsReplaceFirst l "# "
      | none => ""
    let alt := match lines.find? (fun l => jsStartsWith l "Alt: ") with
      | some l => jsReplaceFirst l "Alt: "
      | none => ""
    ⟨title, content, alt⟩

/-- `findDescription`: first of `description.md`, `README.md`,
`description.txt` present in the folder, else the empty string. -/
def findDescription (folder : BookFolder) : String :=
  match lookupFile folder.textFiles "description.md" with
  | some c => c
  | none =>
    match lookupFile folder.textFiles "README.md" with
    | some c => c
    | none =>
      match lookupFile folder.textFiles "description.txt" with
      | some c => c
      | none => ""

/-- The `Map(customOrder.map((filename, index) => [filename, index]))`
lookup: the index of the *last* occurrence of `f` (later duplicate pairs
overwrite earlier ones). -/
def lastIdx? (l : List String) (f : String) : Option Nat :=
  match l.reverse.findIdx? (fun x => x = f) with
  | some i => some (l.length - 1 - i)
  | none => none

/-- `orderMap.get(filename) ?? 999`. -/
def orderVal (ord : List String) (f : String) : Nat :=
  (lastIdx? ord f).getD 999

/-- Codepoint-lexicographic comparison on character lists, the model of
`localeCompare(a, b) ≤ 0` (the default C-locale reading; the claims'
"lexicographic by filename"). -/
def charListLE : List Char → List Char → Bool
  | [], _ => true
  | _ :: _, [] => false
  | a :: as, b :: bs => if a = b then charListLE as bs else decide (a < b)

/-- `a.localeCompare(b) ≤ 0` on strings. -/
def localeLE (a b : String) : Bool :=
  charListLE a.toList b.toList

theorem charListLE_total : ∀ a b : List Char,
    charListLE a b = true ∨ charListLE b a = true
  | [], _ => Or.inl rfl
  | _ :: _, [] => Or.inr rfl
  | x :: xs, y :: ys => by
    by_cases hxy : x = y
    · subst hxy
      rcases charListLE_total xs ys with h | h
      · exact Or.inl (by rw [charListLE, if_pos rfl]; exact h)
      · exact Or.inr (by rw [charListLE, if_pos rfl]; exact h)
    · rcases lt_or_gt_of_ne hxy with h | h
      · exact Or.inl (by rw [charListLE, if_neg hxy]; simpa using h)
      · exact Or.inr (by
          rw [charListLE, if_neg (Ne.symm hxy)]
          simpa using h)

theorem charListLE_trans : ∀ a b c : List Char,
    charListLE a b = true → charListLE b c = true → charListLE a c = true
  | [], _, _, _, _ => rfl
  | x :: xs, [], _, h1, _ => by rw [charListLE] at h1; exact absurd h1 (by simp)
  | _ :: _, _ :: _, [], _, h2 => by rw [charListLE] at h2; exact absurd h2 (by simp)
  | x :: xs, y :: ys, z :: zs, h1, h2 => by
    rw [charListLE] at h1 h2 ⊢
    by_cases hxy : x = y
    · subst hxy
      rw [if_pos rfl] at h1
      by_cases hyz : x = z
      · subst hyz
        rw [if_pos rfl] at h2
        rw [if_pos rfl]
        exact charListLE_trans xs ys zs h1 h2
      · rw [if_neg hyz] at h2
        rw [if_neg hyz]
        exact h2
    · rw [if_neg hxy] at h1
      by_cases hyz : y = z
      · subst hyz
        rw [if_neg hxy]
        exact h1
      · rw [if_neg hyz] at h2
        have hx : x < y := by simpa using h1
        have hy : y < z := by simpa using h2
        have hxz : x ≠ z := ne_of_lt (lt_trans hx hy)
        rw [if_neg hxz]
        simpa using lt_trans hx hy

theorem charListLE_antisymm : ∀ a b : List Char,
    charListLE a b = true → charListLE b a = true → a = b
  | [], [], _, _ => rfl
  | [], _ :: _, _, h2 => by rw [charListLE] at h2; exact absurd h2 (by simp)
  | _ :: _, [], h1, _ => by rw [charListLE] at h1; exact absurd h1 (by simp)
  | x :: xs, y :: ys, h1, h2 => by
    rw [charListLE] at h1 h2
    by_cases hxy : x = y
    · subst hxy
      rw [if_pos rfl] at h1 h2
      rw [charListLE_antisymm xs ys h1 h2]
    · rw [if_neg hxy] at h1
      rw [if_neg (Ne.symm hxy)] at h2
      have hx : x < y := by simpa using h1
      have hy : y < x := by simpa using h2
      exact absurd hx (asymm hy)

theorem localeLE_total (a b : String) : localeLE a b = true ∨ localeLE b a = true :=
  charListLE_total a.toList b.toList

theorem localeLE_trans {a b c : String} (h1 : localeLE a b = true)
    (h2 : localeLE b c = true) : localeLE a c = true :=
  charListLE_trans a.toList b.toList c.toList h1 h2

theorem localeLE_antisymm {a b : String} (h1 : localeLE a b = true)
    (h2 : localeLE b a = true) : a = b := by
  have hd := charListLE_antisymm a.toList b.toList h1 h2
  cases a
  cases b
  simp only [String.toList] at hd
  exact congrArg String.mk hd

/-- The scanner's sort comparator as a total preorder on filenames:
`orderA - orderB`, ties broken by `localeCompare` (with no `pageOrder`,
plain `localeCompare`). -/
def nameLE (po : Option (List String)) (a b : String) : Prop :=
  match po with
  | some ord =>
    orderVal ord a < orderVal ord b ∨
      (orderVal ord a = orderVal ord b ∧ localeLE a b = true)
  | none => localeLE a b = true

instance instDecNameLE (po : Option (List String)) : DecidableRel (nameLE po) :=
  fun a b =>
    match po with
    | some _ => inferInstanceAs (Decidable (_ ∨ _))
    | none => inferInstanceAs (Decidable (localeLE a b = true))

/-- The comparator lifted to images through `path.basename`. -/
def imgLE (po : Option (List String)) (a b : Img) : Prop :=
  nameLE po a.filename b.filename

instance instDecImgLE (po : Option (List String)) : DecidableRel (imgLE po) :=
  fun a b => inferInstanceAs (Decidable (nameLE po a.filename b.filename))

theorem nameLE_total (po : Option (List String)) (a b : String) :
    nameLE po a b ∨ nameLE po b a := by
  cases po with
  | none => exact localeLE_total a b
  | some ord =>
    rcases Nat.lt_trichotomy (orderVal ord a) (orderVal ord b) with h | h | h
    · exact Or.inl (Or.inl h)
    · rcases localeLE_total a b with hs | hs
      · exact Or.inl (Or.inr ⟨h, hs⟩)
      · exact Or.inr (Or.inr ⟨h.symm, hs⟩)
    · exact Or.inr (Or.inl h)

theorem nameLE_trans (po : Option (List String)) (a b c : String)
    (h1 : nameLE po a b) (h2 : nameLE po b c) : nameLE po a c := by
  cases po with
  | none => exact localeLE_trans h1 h2
  | some ord =>
    rcases h1 with h1 | ⟨h1e, h1s⟩
    · rcases h2 with h2 | ⟨h2e, _⟩
      · exact Or.inl (lt_trans h1 h2)
      · exact Or.inl (h2e ▸ h1)
    · rcases h2 with h2 | ⟨h2e, h2s⟩
      · exact Or.inl (h1e ▸ h2)
      · exact Or.inr ⟨h1e.trans h2e, localeLE_trans h1s h2s⟩

theorem nameLE_antisymm (po : Option (List String)) (a b : String)
    (h1 : nameLE po a b) (h2 : nameLE po b a) : a = b := by
  cases po with
  | none => exact localeLE_antisymm h1 h2
  | some ord =>
    rcases h1 with h1 | ⟨h1e, h1s⟩
    · rcases h2 with h2 | ⟨h2e, _⟩
      · exact absurd (lt_trans h1 h2) (lt_irrefl _)
      · exact absurd h1 (h2e ▸ lt_irrefl _)
    · rcases h2 with h2 | ⟨h2e, h2s⟩
      · exact absurd h2 (h1e ▸ lt_irrefl _)
      · exact localeLE_antisymm h1s h2s

instance (po : Option (List String)) : IsTotal Img (imgLE po) :=
  ⟨fun a b => nameLE_total po a.filename b.filename⟩

instance (po : Option (List String)) : IsTrans Img (imgLE po) :=
  ⟨fun a b c => nameLE_trans po a.filename b.filename c.filename⟩

/-- `sortImages(images, customOrder)`: `Array.prototype.sort` with the
scanner's comparator.  The comparator is a total preorder that is
antisymmetric on distinct basenames, so on folders with distinct image
basenames any correct sort returns the unique sorted permutation, here
realized by an insertion sort. -/
def sortImages (images : List Img) (po : Option (List String)) : List Img :=
  List.insertionSort (imgLE po) images

/-- The responsive widths actually generated for a source image: the
loop `continue`s when the target width exceeds the source width. -/
def widthsFor (w : Nat) : List Nat :=
  RESPONSIVE_WIDTHS.filter (fun t => t ≤ w)

/-- The two formats of the generation loop. -/
inductive ImgFormat where
  | webp
  | original
deriving DecidableEq, Repr

/-- `${filename}-${width}w.${format === 'webp' ? 'webp' : ext.slice(1)}`. -/
def outputFilename (i : Img) (w : Nat) (fmt : ImgFormat) : String :=
  i.stem ++ "-" ++ toString w ++ "w." ++
    (match fmt with
     | .webp => "webp"
     | .original => String.mk (i.ext.toList.drop 1))

/-- `/processed-books/${bookId}/${outputFilename}`. -/
def urlFor (bid : String) (i : Img) (w : Nat) (fmt : ImgFormat) : String :=
  "/processed-books/" ++ bid ++ "/" ++ outputFilename i w fmt

/-- One format's `srcSet` string: `` `${url} ${size}` `` entries joined by
`", "`, in insertion (ascending-width) order. -/
def srcSetStr (bid : String) (i : Img) (fmt : ImgFormat) : String :=
  String.intercalate ", "
    ((widthsFor i.width).map
      (fun w => urlFor bid i w fmt ++ " " ++ toString w ++ "w"))

/-- The name of the LQIP file written next to the responsive variants:
`${filename}-lqip.webp`. -/
def lqipFilename (i : Img) : String := i.stem ++ "-lqip.webp"

/-- The manifest's LQIP value: a base64 data URI of the generated
placeholder bytes.  The bytes are codec output and are not modelled; the
URI is represented by its fixed header (sufficient for every claim). -/
def lqipDataURI : String := "data:image/webp;base64,"

/-- The `image` record of a page (the float `aspectRatio` field is not
modelled). -/
structure RImage where
  src : String
  srcSetWebp : String
  srcSetOriginal : String
  alt : String
  width : Nat
  height : Nat
  lqip : String
deriving DecidableEq, Repr

/-- One page of the manifest. -/
structure Page where
  id : String
  title : String
  description : String
  image : RImage
  pageNumber : Nat
deriving DecidableEq, Repr

/-- Every file `processImage` writes into the book's output directory for
one source image: the webp variants, the original-format variants, then
the LQIP file. -/
def processImageFiles (i : Img) : List String :=
  ((widthsFor i.width).map (fun w => outputFilename i w .webp)) ++
    ((widthsFor i.width).map (fun w => outputFilename i w .original)) ++
    [lqipFilename i]

/-- The page record `processImage` returns for a successfully processed
image: page title from the sibling description file falling back to the
formatted stem, alt text falling back to `Page N`, `src` the smallest
emitted original-format variant URL (or `''` when every target width
exceeds the source width), `pageNumber = pageIndex + 1`. -/
def pageOf (folder : BookFolder) (bid : String) (i : Img) (pageIndex : Nat) :
    Page :=
  let desc := findPageDescription folder i
  { id := "page-" ++ toString (pageIndex + 1)
    title := if desc.title = "" then formatTitle i.stem else desc.title
    description := desc.content
    image :=
      { src := match widthsFor i.width with
          | [] => ""
          | w :: _ => urlFor bid i w .original
        srcSetWebp := srcSetStr bid i .webp
        srcSetOriginal := srcSetStr bid i .original
        alt := if desc.alt = "" then "Page " ++ toString (pageIndex + 1)
          else desc.alt
        width := i.width
        height := i.height
        lqip := lqipDataURI }
    pageNumber := pageIndex + 1 }

/-- `processImage`: on `sharp` failure the source logs and rethrows
(modelled as `Except.error`); on success it returns the page record and
the files written. -/
def processImage (folder : BookFolder) (bid : String) (i : Img)
    (pageIndex : Nat) : Except Unit (Page × List String) :=
  if i.ok then Except.ok (pageOf folder bid i pageIndex, processImageFiles i)
  else Except.error ()

/-- The page loop of `processBook`: images in sorted order, page index
counting up; the first failure aborts the loop (no catch in
`processBook`). -/
def processPages (folder : BookFolder) (bid : String) :
    List Img → Nat → Except Unit (List (Page × List String))
  | [], _ => Except.ok []
  | i :: rest, n =>
    match processImage folder bid i n with
    | Except.error e => Except.error e
    | Except.ok p =>
      match processPages folder bid rest (n + 1) with
      | Except.error e => Except.error e
      | Except.ok ps => Except.ok (p :: ps)

/-- A manifest book entry (fields the claims are about; the clock-derived
`createdAt`/`updatedAt`, `tags` and `settings` are not modelled). -/
structure Book where
  id : String
  title : String
  description : String
  coverImage : Option RImage
  pages : List Page
deriving DecidableEq, Repr

/-- `processBook`: `null` (here `none`) for a folder without images
(warn and skip); otherwise sort the images, process each page in order
(first page's image becomes the cover), and build the book record.  A page
failure propagates out as `Except.error`. -/
def processBook (f : BookFolder) : Except Unit (Option Book) :=
  if f.images.isEmpty then Except.ok none
  else
    match processPages f (generateId f.name) (sortImages f.images f.pageOrder) 0 with
    | Except.error e => Except.error e
    | Except.ok prs =>
      Except.ok (some
        { id := generateId f.name
          title := jsOr f.metaTitle (formatTitle f.name)
          description := jsOr f.metaDescription (findDescription f)
          coverImage := (prs.map (·.1)).head?.map (·.image)
          pages := prs.map (·.1) })

/-- The page/file pairs `processPages` produces when every image
processes successfully. -/
def pagesOf (folder : BookFolder) (bid : String) :
    List Img → Nat → List (Page × List String)
  | [], _ => []
  | i :: rest, n =>
    (pageOf folder bid i n, processImageFiles i) :: pagesOf folder bid rest (n + 1)

/-- The book record `processBook` builds when every image of the folder
processes successfully. -/
def bookOf (f : BookFolder) : Book :=
  { id := generateId f.name
    title := jsOr f.metaTitle (formatTitle f.name)
    description := jsOr f.metaDescription (findDescription f)
    coverImage :=
      ((pagesOf f (generateId f.name) (sortImages f.images f.pageOrder) 0).map
        (·.1)).head?.map (·.image)
    pages :=
      (pagesOf f (generateId f.name) (sortImages f.images f.pageOrder) 0).map
        (·.1) }

/-- A folder yields a manifest entry exactly when it has at least one
image and every image processes successfully. -/
def folderProcessed (f : BookFolder) : Bool :=
  !f.images.isEmpty && f.images.all (·.ok)

/-- Book order of the final manifest: `sort((a, b) =>
a.title.localeCompare(b.title))`. -/
def bookLE (a b : Book) : Prop := localeLE a.title b.title = true

instance instDecBookLE : DecidableRel bookLE :=
  fun a b => inferInstanceAs (Decidable (localeLE a.title b.title = true))

instance : IsTotal Book bookLE := ⟨fun a b => localeLE_total a.title b.title⟩

instance : IsTrans Book bookLE :=
  ⟨fun _ _ _ h1 h2 => localeLE_trans h1 h2⟩

/-- What one folder contributes to the manifest: the book on success,
nothing when the folder was skipped (no images), nothing when its
processing threw (`scan` catches per folder and continues). -/
def processedBook? (f : BookFolder) : Option Book :=
  match processBook f with
  | Except.ok (some b) => some b
  | Except.ok none => none
  | Except.error _ => none

/-- `scan`: process each folder, catching a folder's failure (the book is
skipped, siblings continue), then sort the collected books by title (a
stable sort, as JS guarantees). -/
def scanManifestBooks (folders : List BookFolder) : List Book :=
  List.insertionSort bookLE (folders.filterMap processedBook?)

/-- The files a fully processed folder leaves in its output directory
(nothing in the pipeline ever deletes a derived file; files written before
a failing image of a dropped book are not tracked, which no claim
needs). -/
def bookEmittedFiles (f : BookFolder) : List String :=
  match processPages f (generateId f.name) (sortImages f.images f.pageOrder) 0 with
  | Except.ok prs => prs.flatMap (·.2)
  | Except.error _ => []

/-- All `(bookOutputDirBasename, filename)` pairs of derived assets present
after a scan completes. -/
def scanEmittedFiles (folders : List BookFolder) : List (String × String) :=
  folders.flatMap (fun f =>
    (bookEmittedFiles f).map (fun n => (generateId f.name, n)))

/-- A filesystem mutation, for describing how the manifest is written. -/
inductive FsOp where
  | write (path : String) (content : String)
  | rename (src : String) (dst : String)
deriving DecidableEq, Repr

/-- `saveManifest`: a single `fs.writeJson(manifestPath, manifest)` — one
direct write of the final path, no temporary file and no rename. -/
def saveManifestOps (manifestPath : String) (content : String) : List FsOp :=
  [FsOp.write manifestPath content]

/-- Modelled from the spec: an atomic manifest write in the spec's sense
("write-temp-then-rename, or equivalent") never writes the final path
directly — the final content may only arrive via a rename of a fully
written temporary file. -/
def AtomicReplaceSpec (ops : List FsOp) (finalPath : String) : Prop :=
  (∀ c, FsOp.write finalPath c ∉ ops) ∧
    (∃ op ∈ ops, ∃ tmp, tmp ≠ finalPath ∧ op = FsOp.rename tmp finalPath)

theorem processPages_ok (folder : BookFolder) (bid : String) :
    ∀ (l : List Img) (n : Nat), (∀ i ∈ l, i.ok = true) →
      processPages folder bid l n = Except.ok (pagesOf folder bid l n)
  | [], _, _ => rfl
  | i :: rest, n, h => by
    have hok : i.ok = true := h i (List.mem_cons_self i rest)
    rw [processPages, processImage, hok, if_pos rfl,
      processPages_ok folder bid rest (n + 1)
        (fun j hj => h j (List.mem_cons_of_mem i hj))]
    rfl

theorem processPages_error (folder : BookFolder) (bid : String) :
    ∀ (l : List Img) (n : Nat), (∃ i ∈ l, i.ok = false) →
      processPages folder bid l n = Except.error ()
  | i :: rest, n, h => by
    by_cases hok : i.ok = true
    · have hrest : ∃ j ∈ rest, j.ok = false := by
        rcases h with ⟨j, hj, hfail⟩
        rcases List.mem_cons.mp hj with rfl | hj2
        · rw [hok] at hfail
          exact absurd hfail (by simp)
        · exact ⟨j, hj2, hfail⟩
      rw [processPages, processImage, hok, if_pos rfl,
        processPages_error folder bid rest (n + 1) hrest]
    · rw [processPages, processImage, if_neg hok]

theorem images_not_isEmpty_of_mem {f : BookFolder} {i : Img}
    (hi : i ∈ f.images) : f.images.isEmpty = false := by
  cases himg : f.images with
  | nil => rw [himg] at hi; cases hi
  | cons a rest => rfl

theorem processBook_eq_ok {f : BookFolder} (hp : folderProcessed f = true) :
    processBook f = Except.ok (some (bookOf f)) := by
  rw [folderProcessed, Bool.and_eq_true, Bool.not_eq_true',
    List.all_eq_true] at hp
  have hsorted : ∀ i ∈ sortImages f.images f.pageOrder, i.ok = true :=
    fun i hi => hp.2 i ((List.perm_insertionSort _ _).subset hi)
  rw [processBook, if_neg (by simp [hp.1]),
    processPages_ok f (generateId f.name) _ 0 hsorted]
  rfl

theorem processBook_eq_none {f : BookFolder} (he : f.images.isEmpty = true) :
    processBook f = Except.ok none := by
  rw [processBook, if_pos he]

theorem processBook_eq_error {f : BookFolder}
    (hf : ∃ i ∈ f.images, i.ok = false) : processBook f = Except.error () := by
  have hsorted : ∃ i ∈ sortImages f.images f.pageOrder, i.ok = false := by
    rcases hf with ⟨i, hi, h⟩
    exact ⟨i, ((List.perm_insertionSort _ _).mem_iff).mpr hi, h⟩
  have hne : f.images.isEmpty = false := by
    rcases hf with ⟨i, hi, _⟩
    exact images_not_isEmpty_of_mem hi
  rw [processBook, if_neg (by simp [hne]),
    processPages_error f (generateId f.name) _ 0 hsorted]

theorem processedBook?_eq_some {f : BookFolder}
    (hp : folderProcessed f = true) : processedBook? f = some (bookOf f) := by
  rw [processedBook?, processBook_eq_ok hp]

theorem processedBook?_eq_none {f : BookFolder}
    (hp : folderProcessed f = false) : processedBook? f = none := by
  rw [folderProcessed, Bool.and_eq_false_iff] at hp
  rcases hp with hp | hp
  · have he : f.images.isEmpty = true := by
      cases he2 : f.images.isEmpty with
      | true => rfl
      | false => rw [he2] at hp; simp at hp
    rw [processedBook?, processBook_eq_none he]
  · have hf : ∃ i ∈ f.images, i.ok = false := by
      rcases List.all_eq_false.mp hp with ⟨i, hi, hne⟩
      exact ⟨i, hi, by simpa using hne⟩
    rw [processedBook?, processBook_eq_error hf]

/-- C2 (amended): one failing image makes `processImage` rethrow and
`processBook` has no per-image catch, so the *whole containing book* is
dropped from the manifest (its error is caught per folder inside `scan`);
sibling books before and after it are processed exactly as if the failing
folder were absent. -/
theorem image_failure_drops_whole_book (pre post : List BookFolder)
    (f : BookFolder) (hfail : ∃ i ∈ f.images, i.ok = false) :
    scanManifestBooks (pre ++ f :: post) = scanManifestBooks (pre ++ post) := by
  have hnone : processedBook? f = none := by
    rw [processedBook?, processBook_eq_error hfail]
  rw [scanManifestBooks, scanManifestBooks, List.filterMap_append,
    List.filterMap_append, List.filterMap_cons_none hnone]

/-- The C6 scenario folder: `books/first-smile/` holding `001-a.jpg`,
`002-b.jpg` and `002-b.md` with content `# Walking\nAlt: baby walking`. -/
def folderC6 : BookFolder :=
  { name := "first-smile"
    images := [⟨"001-a", ".jpg", 800, 600, true⟩,
               ⟨"002-b", ".jpg", 800, 600, true⟩]
    textFiles := [("002-b.md", "# Walking\nAlt: baby walking")]
    metaTitle := none
    metaDescription := none
    pageOrder := none }

/-- A folder whose first (sorted) image fails processing and whose second
is fine. -/
def folderAlpha : BookFolder :=
  ⟨"alpha", [⟨"001-x", ".jpg", 500, 500, false⟩,
             ⟨"002-y", ".jpg", 500, 500, true⟩], [], none, none, none⟩

/-- A healthy sibling folder. -/
def folderBeta : BookFolder :=
  ⟨"beta", [⟨"001-z", ".jpg", 500, 500, true⟩], [], none, none, none⟩

/-- Witness for `image_failure_drops_whole_book` at the concrete pair
`[folderAlpha, folderBeta]`. -/
theorem image_failure_drops_whole_book_witness :
    (∃ i ∈ folderAlpha.images, i.ok = false) ∧
    scanManifestBooks ([] ++ folderAlpha :: [folderBeta]) =
      scanManifestBooks ([] ++ [folderBeta]) :=
  ⟨by decide, image_failure_drops_whole_book [] [folderBeta] folderAlpha
    (by decide)⟩

/-- C2 counterexample: in a scan of `folderAlpha` (image 1 fails, image 2
is fine) next to `folderBeta`, no entry for `alpha` appears at all — the
healthy page `002-y` of the same book is not in the manifest, contradicting
"only that image is skipped"; the sibling book is unaffected. -/
theorem image_failure_not_isolated_to_image :
    (scanManifestBooks [folderAlpha, folderBeta]).map Book.id = ["beta"] ∧
    (∀ b ∈ scanManifestBooks [folderAlpha, folderBeta], b.id ≠ "alpha") := by
  constructor
  · decide
  · decide

/-- C6: the `first-smile` scenario produces exactly one manifest entry,
with id `first-smile`, two pages, and page 2 titled `Walking` with alt
text `baby walking`. -/
theorem first_smile_scenario :
    (scanManifestBooks [folderC6]).map
        (fun b => (b.id, b.pages.length,
          (b.pages.map (fun p => (p.title, p.image.alt, p.pageNumber)))[1]?)) =
      [("first-smile", 2, some ("Walking", "baby walking", 2))] := by
  decide

theorem lqip_mem_processImageFiles (i : Img) :
    lqipFilename i ∈ processImageFiles i := by
  rw [processImageFiles]
  exact List.mem_append_right _ (List.mem_singleton.mpr rfl)

theorem lqip_mem_pagesOf_files (folder : BookFolder) (bid : String) {i : Img} :
    ∀ (l : List Img) (n : Nat), i ∈ l →
      lqipFilename i ∈ (pagesOf folder bid l n).flatMap (·.2)
  | j :: rest, n, hi => by
    rw [pagesOf, List.flatMap_cons]
    rcases List.mem_cons.mp hi with rfl | hi2
    · exact List.mem_append_left _ (lqip_mem_processImageFiles i)
    · exact List.mem_append_right _
        (lqip_mem_pagesOf_files folder bid rest (n + 1) hi2)

/-- C4 (amended): for every successfully processed source image the LQIP
is embedded in the manifest page as a base64 data URI, *and* the pipeline
also writes the placeholder to a separate file `{stem}-lqip.webp` in the
book's output directory, which nothing ever deletes — so the file is still
among the derived assets after the scan completes. -/
theorem lqip_embedded_and_file_emitted (pre post : List BookFolder)
    (f : BookFolder) (i : Img) (hi : i ∈ f.images)
    (hok : ∀ j ∈ f.images, j.ok = true) :
    (generateId f.name, lqipFilename i) ∈ scanEmittedFiles (pre ++ f :: post) ∧
    ∀ (bid : String) (n : Nat),
      processImage f bid i n = Except.ok (pageOf f bid i n, processImageFiles i) ∧
      (pageOf f bid i n).image.lqip = lqipDataURI ∧
      lqipFilename i ∈ processImageFiles i := by
  constructor
  · have hsub : ∀ j ∈ sortImages f.images f.pageOrder, j.ok = true := by
      intro j hj
      exact hok j ((List.perm_insertionSort (imgLE f.pageOrder) f.images).subset hj)
    have hmem : i ∈ sortImages f.images f.pageOrder :=
      ((List.perm_insertionSort (imgLE f.pageOrder) f.images).mem_iff).mpr hi
    have hfiles : lqipFilename i ∈ bookEmittedFiles f := by
      rw [bookEmittedFiles,
        processPages_ok f (generateId f.name) (sortImages f.images f.pageOrder) 0 hsub]
      exact lqip_mem_pagesOf_files f (generateId f.name) _ 0 hmem
    rw [scanEmittedFiles]
    rw [List.mem_flatMap]
    exact ⟨f, List.mem_append_right _ (List.mem_cons_self f post),
      List.mem_map_of_mem _ hfiles⟩
  · intro bid n
    refine ⟨?_, rfl, lqip_mem_processImageFiles i⟩
    rw [processImage, hok i hi, if_pos rfl]

/-- Witness for `lqip_embedded_and_file_emitted` at the `first-smile`
scenario's first image. -/
theorem lqip_embedded_and_file_emitted_witness :
    (⟨"001-a", ".jpg", 800, 600, true⟩ : Img) ∈ folderC6.images ∧
    ((generateId folderC6.name,
        lqipFilename ⟨"001-a", ".jpg", 800, 600, true⟩) ∈
      scanEmittedFiles ([] ++ folderC6 :: []) ∧
    ∀ (bid : String) (n : Nat),
      processImage folderC6 bid ⟨"001-a", ".jpg", 800, 600, true⟩ n =
        Except.ok (pageOf folderC6 bid ⟨"001-a", ".jpg", 800, 600, true⟩ n,
          processImageFiles ⟨"001-a", ".jpg", 800, 600, true⟩) ∧
      (pageOf folderC6 bid ⟨"001-a", ".jpg", 800, 600, true⟩ n).image.lqip =
        lqipDataURI ∧
      lqipFilename ⟨"001-a", ".jpg", 800, 600, true⟩ ∈
        processImageFiles ⟨"001-a", ".jpg", 800, 600, true⟩) :=
  ⟨by decide, lqip_embedded_and_file_emitted [] [] folderC6
    ⟨"001-a", ".jpg", 800, 600, true⟩ (by decide) (by decide)⟩

/-- C4 counterexample: after scanning the `first-smile` folder, the
separate placeholder file `001-a-lqip.webp` *is* among the derived assets
of the book's output directory. -/
theorem lqip_file_exists_after_scan :
    ("first-smile", "001-a-lqip.webp") ∈ scanEmittedFiles [folderC6] := by
  decide

/-- C7 (amended): `saveManifest` performs exactly one direct
`fs.writeJson` of the final manifest path — no temporary file and no
rename, so the write-temp-then-rename atomicity the spec describes is not
provided. -/
theorem saveManifest_single_direct_write (p c : String) :
    saveManifestOps p c = [FsOp.write p c] ∧
      ¬AtomicReplaceSpec (saveManifestOps p c) p :=
  ⟨rfl, fun h => h.1 c (List.mem_singleton.mpr rfl)⟩

/-- C7 counterexample: at the concrete manifest path, the operation list
is a direct write of the final path, which no atomic
write-temp-then-rename scheme (in the spec's sense) may contain. -/
theorem saveManifest_not_atomic :
    saveManifestOps "public/books-manifest.json" "{}" =
      [FsOp.write "public/books-manifest.json" "{}"] ∧
    ¬AtomicReplaceSpec (saveManifestOps "public/books-manifest.json" "{}")
      "public/books-manifest.json" :=
  ⟨rfl, fun h => h.1 "{}" (List.mem_singleton.mpr rfl)⟩

/-- C8 (amended): the manifest's id list is exactly the slugified folder
name of every folder that processes successfully (one entry per such
folder, reordered only by the title sort); `generateId` is applied with no
collision detection or disambiguation, so ids are pairwise distinct
exactly when slugification is injective on the processed folder names, and
two folders slugifying alike yield duplicate ids (see the
counterexample). -/
theorem scan_ids_are_slugs (folders : List BookFolder) :
    ((scanManifestBooks folders).map Book.id).Perm
      ((folders.filter folderProcessed).map (fun f => generateId f.name)) := by
  rw [scanManifestBooks]
  refine ((List.perm_insertionSort bookLE _).map Book.id).trans ?_
  have key : ∀ fs : List BookFolder,
      (fs.filterMap processedBook?).map Book.id =
        (fs.filter folderProcessed).map (fun f => generateId f.name) := by
    intro fs
    induction fs with
    | nil => rfl
    | cons f rest ih =>
      cases hp : folderProcessed f with
      | true =>
        rw [List.filterMap_cons_some (processedBook?_eq_some hp),
          List.filter_cons_of_pos hp, List.map_cons, List.map_cons, ih]
        rfl
      | false =>
        rw [List.filterMap_cons_none (processedBook?_eq_none hp),
          List.filter_cons_of_neg (by simp [hp]), ih]
  rw [key folders]

/-- Two folders whose names slugify to the same id. -/
def folderMyBook : BookFolder :=
  ⟨"My Book", [⟨"p1", ".jpg", 500, 500, true⟩], [], none, none, none⟩

/-- The sibling folder colliding with `folderMyBook`. -/
def folderMyBook2 : BookFolder :=
  ⟨"my-book", [⟨"p1", ".jpg", 500, 500, true⟩], [], none, none, none⟩

/-- C8 counterexample: `"My Book"` and `"my-book"` both slugify to
`my-book`; the scan emits both entries with identical ids — no collision
detection, no disambiguating suffix, ids not pairwise distinct. -/
theorem duplicate_ids_emitted :
    (scanManifestBooks [folderMyBook, folderMyBook2]).map Book.id =
      ["my-book", "my-book"] ∧
    ¬((scanManifestBooks [folderMyBook, folderMyBook2]).map Book.id).Nodup := by
  constructor
  · decide
  · decide

theorem lastIdx?_of_mem {l : List String} {f : String} (hf : f ∈ l) :
    ∃ i, lastIdx? l f = some i ∧ i < l.length ∧ l[i]? = some f := by
  have hf2 : f ∈ l.reverse := List.mem_reverse.mpr hf
  have hex : ∃ x ∈ l.reverse, (fun x => decide (x = f)) x = true :=
    ⟨f, hf2, by simp⟩
  have hi := List.findIdx?_eq_some_of_exists hex
  set i := l.reverse.findIdx (fun x => decide (x = f)) with hidef
  obtain ⟨hlt, hpi, _⟩ := List.findIdx?_eq_some_iff_getElem.mp hi
  have hlen : i < l.length := by
    rw [List.length_reverse] at hlt
    exact hlt
  refine ⟨l.length - 1 - i, ?_, by omega, ?_⟩
  · rw [lastIdx?, hi]
  · rw [← List.getElem?_reverse hlen, List.getElem?_eq_getElem hlt]
    simpa using hpi

theorem lastIdx?_eq_none_of_not_mem {l : List String} {f : String}
    (hf : f ∉ l) : lastIdx? l f = none := by
  rw [lastIdx?]
  have hnone : l.reverse.findIdx? (fun x => decide (x = f)) = none := by
    rw [List.findIdx?_eq_none_iff]
    intro x hx
    simp only [decide_eq_false_iff_not]
    intro hxf
    exact hf (hxf ▸ List.mem_reverse.mp hx)
  rw [hnone]

theorem orderVal_of_not_mem {po : List String} {f : String} (hf : f ∉ po) :
    orderVal po f = 999 := by
  rw [orderVal, lastIdx?_eq_none_of_not_mem hf]
  rfl

theorem orderVal_of_mem {po : List String} {f : String} (hf : f ∈ po) :
    orderVal po f < po.length ∧ po[orderVal po f]? = some f := by
  obtain ⟨i, hi, hlt, hget⟩ := lastIdx?_of_mem hf
  rw [orderVal, hi]
  exact ⟨hlt, hget⟩

theorem map_nodup_inj {α β : Type} {g : α → β} :
    ∀ {l : List α}, (l.map g).Nodup → ∀ a ∈ l, ∀ b ∈ l, g a = g b → a = b
  | [], _, a, ha, _, _, _ => absurd ha (List.not_mem_nil a)
  | x :: t, h, a, ha, b, hb, hgab => by
    rw [List.map_cons, List.nodup_cons] at h
    rcases List.mem_cons.mp ha with rfl | ha2
    · rcases List.mem_cons.mp hb with rfl | hb2
      · rfl
      · exact absurd (hgab ▸ List.mem_map_of_mem g hb2) h.1
    · rcases List.mem_cons.mp hb with rfl | hb2
      · exact absurd (hgab ▸ List.mem_map_of_mem g ha2) h.1
      · exact map_nodup_inj h.2 a ha2 b hb2 hgab

theorem sorted_perm_eq {α : Type} {r : α → α → Prop} :
    ∀ {l₁ l₂ : List α}, l₁.Perm l₂ → l₁.Pairwise r → l₂.Pairwise r →
      (∀ a ∈ l₁, ∀ b ∈ l₁, r a b → r b a → a = b) → l₁ = l₂
  | [], l₂, hp, _, _, _ => (hp.symm.eq_nil).symm
  | a :: t₁, l₂, hp, hs₁, hs₂, hanti => by
    cases l₂ with
    | nil => exact hp.eq_nil
    | cons b t₂ =>
      have hab : a = b := by
        rcases List.mem_cons.mp (hp.subset (List.mem_cons_self a t₁)) with h | h
        · exact h
        · rcases List.mem_cons.mp (hp.symm.subset (List.mem_cons_self b t₂))
            with h2 | h2
          · exact h2.symm
          · have hr1 : r a b := (List.pairwise_cons.mp hs₁).1 b h2
            have hr2 : r b a := (List.pairwise_cons.mp hs₂).1 a h
            exact hanti a (List.mem_cons_self a t₁) b
              (List.mem_cons_of_mem a h2) hr1 hr2
      subst hab
      have htail : t₁ = t₂ :=
        sorted_perm_eq hp.cons_inv (List.pairwise_cons.mp hs₁).2
          (List.pairwise_cons.mp hs₂).2
          (fun x hx y hy => hanti x (List.mem_cons_of_mem a hx) y
            (List.mem_cons_of_mem a hy))
      rw [htail]

/-- Modelled from the spec: the page order §4.1 describes.  Listed files
(those appearing in `pageOrder`) come before unlisted ones; two listed
files are ordered by their `pageOrder` positions; two unlisted files are
ordered by filename. -/
def SpecPageOrderLe (po : List String) (a b : Img) : Prop :=
  (a.filename ∈ po ∧ b.filename ∉ po) ∨
  (∃ ia ib : Nat, ia ≤ ib ∧ po[ia]? = some a.filename ∧
    po[ib]? = some b.filename) ∨
  (a.filename ∉ po ∧ b.filename ∉ po ∧ localeLE a.filename b.filename = true)

theorem mem_sortImages {x : Img} {l : List Img} {po : Option (List String)} :
    x ∈ sortImages l po ↔ x ∈ l :=
  (List.perm_insertionSort (imgLE po) l).mem_iff

/-- C5 (amended): provided the folder's image basenames are distinct and
`pageOrder` has at most 999 entries (the source uses `?? 999` as the
unlisted sentinel, so a longer `pageOrder` collides with it — see the
counterexample), the sorted result is a permutation of the images in which
every listed file precedes every unlisted file, listed files follow their
`pageOrder` positions, unlisted files are ordered by filename; with no
`pageOrder` the order is lexicographic by filename; and in both cases the
result (hence each `pageNumber`) is independent of the enumeration order
of the input. -/
theorem pageOrder_sorting_amended (images : List Img) (po : List String)
    (hnd : (images.map Img.filename).Nodup) (hlen : po.length ≤ 999) :
    (sortImages images (some po)).Perm images ∧
    (sortImages images (some po)).Pairwise (SpecPageOrderLe po) ∧
    (sortImages images none).Perm images ∧
    (sortImages images none).Pairwise
      (fun a b => localeLE a.filename b.filename = true) ∧
    (∀ images2, images2.Perm images →
      sortImages images2 (some po) = sortImages images (some po) ∧
      sortImages images2 none = sortImages images none) := by
  have hanti : ∀ (opo : Option (List String)) (l : List Img),
      (∀ x ∈ l, x ∈ images) → ∀ a ∈ l, ∀ b ∈ l,
        imgLE opo a b → imgLE opo b a → a = b := by
    intro opo l hsub a ha b hb h1 h2
    exact map_nodup_inj hnd a (hsub a ha) b (hsub b hb)
      (nameLE_antisymm opo a.filename b.filename h1 h2)
  refine ⟨List.perm_insertionSort _ _, ?_, List.perm_insertionSort _ _, ?_, ?_⟩
  · have hs := List.sorted_insertionSort (imgLE (some po)) images
    refine hs.imp_of_mem ?_
    intro a b _ _ hab
    by_cases hla : a.filename ∈ po
    · by_cases hlb : b.filename ∈ po
      · obtain ⟨_, hgeta⟩ := orderVal_of_mem hla
        obtain ⟨_, hgetb⟩ := orderVal_of_mem hlb
        refine Or.inr (Or.inl ⟨orderVal po a.filename, orderVal po b.filename,
          ?_, hgeta, hgetb⟩)
        rcases hab with h | ⟨h, _⟩
        · exact Nat.le_of_lt h
        · exact Nat.le_of_eq h
      · exact Or.inl ⟨hla, hlb⟩
    · by_cases hlb : b.filename ∈ po
      · exfalso
        obtain ⟨hblt, _⟩ := orderVal_of_mem hlb
        have ha999 : orderVal po a.filename = 999 := orderVal_of_not_mem hla
        rcases hab with h | ⟨h, _⟩
        · omega
        · omega
      · refine Or.inr (Or.inr ⟨hla, hlb, ?_⟩)
        have ha999 : orderVal po a.filename = 999 := orderVal_of_not_mem hla
        have hb999 : orderVal po b.filename = 999 := orderVal_of_not_mem hlb
        rcases hab with h | ⟨_, h⟩
        · omega
        · exact h
  · have hs := List.sorted_insertionSort (imgLE none) images
    exact hs.imp (fun h => h)
  · intro images2 hperm
    constructor
    · apply sorted_perm_eq
        ((List.perm_insertionSort _ _).trans
          (hperm.trans (List.perm_insertionSort _ _).symm))
        (List.sorted_insertionSort (imgLE (some po)) images2)
        (List.sorted_insertionSort (imgLE (some po)) images)
      exact hanti (some po) _
        (fun x hx => hperm.subset (mem_sortImages.mp hx))
    · apply sorted_perm_eq
        ((List.perm_insertionSort _ _).trans
          (hperm.trans (List.perm_insertionSort _ _).symm))
        (List.sorted_insertionSort (imgLE none) images2)
        (List.sorted_insertionSort (imgLE none) images)
      exact hanti none _
        (fun x hx => hperm.subset (mem_sortImages.mp hx))

/-- A 1001-entry `pageOrder`: a thousand filler names followed by
`b.jpg` at index 1000. -/
def bigOrder : List String :=
  (List.range 1000).map (fun n => toString n ++ ".jpg") ++ ["b.jpg"]

/-- An image file not listed in `bigOrder`. -/
def imgA : Img := ⟨"a", ".jpg", 800, 600, true⟩

/-- The image file listed at index 1000 of `bigOrder`. -/
def imgB : Img := ⟨"b", ".jpg", 800, 600, true⟩

set_option maxRecDepth 40000 in
/-- C5 counterexample: with a 1001-entry `pageOrder`, `b.jpg` is listed
(at index 1000) and `a.jpg` is not, yet the unlisted `a.jpg` sorts before
the listed `b.jpg` — the `?? 999` sentinel makes entries past index 999
lose to unlisted files, so listed files do not always precede unlisted
ones and listed positions are not honoured. -/
theorem pageOrder_sentinel_breaks_order :
    "b.jpg" ∈ bigOrder ∧ "a.jpg" ∉ bigOrder ∧
    (sortImages [imgA, imgB] (some bigOrder)).map Img.filename =
      ["a.jpg", "b.jpg"] := by
  refine ⟨by decide, by decide, by decide⟩

/-- Witness for `pageOrder_sorting_amended` at a two-image folder with a
one-entry `pageOrder` listing `b.jpg`. -/
theorem pageOrder_sorting_amended_witness :
    (sortImages [imgA, imgB] (some ["b.jpg"])).Perm [imgA, imgB] ∧
    (sortImages [imgA, imgB] (some ["b.jpg"])).Pairwise
      (SpecPageOrderLe ["b.jpg"]) ∧
    (sortImages [imgA, imgB] none).Perm [imgA, imgB] ∧
    (sortImages [imgA, imgB] none).Pairwise
      (fun a b => localeLE a.filename b.filename = true) ∧
    (∀ images2, images2.Perm [imgA, imgB] →
      sortImages images2 (some ["b.jpg"]) =
        sortImages [imgA, imgB] (some ["b.jpg"]) ∧
      sortImages images2 none = sortImages [imgA, imgB] none) :=
  pageOrder_sorting_amended [imgA, imgB] ["b.jpg"] (by decide) (by decide)

end Pipeline
end BabyBook
